import Mathlib

/-!
Verification of the binarydump utility (src/binarydump.c, src/binarydump.rb).

The C program is embedded shallowly: bytes are `Nat` values in [0, 256),
the input stream is a `List Nat`, and each printing function returns the
`String` it would write to stdout.  Loops of the C source are embedded as
structurally recursive functions on an explicit fuel argument that bounds
the number of iterations (the fuel is always initialised large enough that
it never runs out, which the lemmas below establish).
-/

namespace BinaryDump

set_option maxRecDepth 100000

/-- Embedding of `print_byte`'s do-while loop from src/binarydump.c.
`n` counts the remaining iterations; at each step the C mask equals
`2 ^ (n - 1)` (starting from `0x80 = 2 ^ 7` with `n = 8`) and is
right-shifted (halved) after each printed bit. -/
def printByteLoop (byte : Nat) : Nat → List Char
  | 0 => []
  | n + 1 => (if byte &&& 2 ^ n ≠ 0 then '1' else '0') :: printByteLoop byte n

/-- Embedding of `print_byte`: prints bits for masks `0x80` down to `0x01`. -/
def print_byte (byte : Nat) : String :=
  ⟨printByteLoop byte 8⟩

/-- Parsing a string of binary digits as a base-2 integer (the spec's
round-trip notion, not part of the C source). -/
def parseBin (s : String) : Nat :=
  s.data.foldl (fun acc c => 2 * acc + (if c = '1' then 1 else 0)) 0

/-- One hexadecimal digit as produced by printf's `%X` (uppercase). -/
def hexDigit (n : Nat) : Char :=
  if n < 10 then Char.ofNat ('0'.toNat + n) else Char.ofNat ('A'.toNat + (n - 10))

/-- Digits of `n` in base 16, most significant first, as printed by `%X`
for a non-zero argument.  `fuel` bounds the recursion depth; `fuel = n`
always suffices since the argument is divided by 16 at each step. -/
def toHexCore : Nat → Nat → List Char
  | 0, _ => []
  | fuel + 1, n =>
    if n = 0 then [] else toHexCore fuel (n / 16) ++ [hexDigit (n % 16)]

/-- printf's `"%X"` rendering: uppercase hex, no leading zeros, `0 ↦ "0"`. -/
def toHex (n : Nat) : String :=
  if n = 0 then "0" else ⟨toHexCore n n⟩

/-- The inner for-loop of `binary_dump`: print each byte of the chunk,
followed by three spaces when formatting is enabled. -/
def render_chunk (fmt : Bool) : List Nat → String
  | [] => ""
  | b :: rest => print_byte b ++ (if fmt then "   " else "") ++ render_chunk fmt rest

/-- Embedding of `binary_dump`'s while-loop.  One iteration reads
`min k |bs|` bytes (`fread` returns `bs.take k`), prints the offset prefix
when formatting is enabled, advances the offset, prints the chunk and a
newline.  Returns the printed output, the final value of the `offset`
variable, and (as a ghost observation for stating the offset invariant)
the list of values taken by `offset` after each `offset += num_bytes_read`
update.  `fuel` bounds the iterations; `fuel = bs.length` suffices because
every iteration consumes at least one byte. -/
def binary_dump_loop (k : Nat) (fmt : Bool) : Nat → Nat → List Nat → String × Nat × List Nat
  | 0, off, _ => ("", off, [])
  | fuel + 1, off, bs =>
    let chunk := bs.take k
    if chunk = [] then ("", off, [])
    else
      let off' := off + chunk.length
      let r := binary_dump_loop k fmt fuel off' (bs.drop k)
      ((if fmt then "0x" ++ toHex off ++ "\t" else "") ++ render_chunk fmt chunk ++ "\n" ++ r.1,
        r.2.1, off' :: r.2.2)

/-- Embedding of `binary_dump`: run the read loop, then print the final
offset line when formatting is enabled. -/
def binary_dump (k : Nat) (fmt : Bool) (bs : List Nat) : String :=
  let r := binary_dump_loop k fmt bs.length 0 bs
  r.1 ++ (if fmt then "0x" ++ toHex r.2.1 ++ "\n" else "")

/-- C's `isspace` for the default locale, used by `atoi`. -/
def isSpaceC (c : Char) : Bool :=
  c = ' ' || c = '\t' || c = '\n' || c = '\x0b' || c = '\x0c' || c = '\r'

/-- Leading-digit accumulation of C's `atoi`: consume decimal digits until
the first non-digit. -/
def atoiDigits : List Char → Nat → Nat
  | [], acc => acc
  | c :: rest, acc =>
    if c.isDigit then atoiDigits rest (10 * acc + (c.toNat - '0'.toNat)) else acc

/-- Embedding of C's `atoi`: skip whitespace, read an optional sign, then
leading decimal digits; returns 0 when no digits are present.  C strings
(`char *`) are modelled as lists of characters. -/
def atoi (s : List Char) : Int :=
  match s.dropWhile isSpaceC with
  | '-' :: rest => -(atoiDigits rest 0 : Int)
  | '+' :: rest => (atoiDigits rest 0 : Int)
  | rest => (atoiDigits rest 0 : Int)

/-- Outcome of `process_args`: either it returns normally with the final
values of the globals `bytes_per_line`, `formatting_enabled` and
`filename`, or it terminates the process.  `helpExit` models
`exit(EXIT_SUCCESS)` after printing usage (exit code 0); `errorExit msg`
models `fprintf(stderr, msg)` followed by `exit(EXIT_FAILURE)` (a non-zero
exit code), which happens before `binary_dump` ever runs. -/
inductive ArgsResult where
  | ok (bytes_per_line : Int) (formatting_enabled : Bool) (filename : Option (List Char))
  | helpExit
  | errorExit (msg : String)
  deriving DecidableEq

/-- Embedding of the argument loop of `process_args`.  The C code
dispatches on the FIRST character after a leading `-`: any `-h…` argument
is help, any `-n…` argument consumes the next argument as the count
(`atoi`; kept only when non-zero), any `-r…` argument enables raw mode,
any other `-…` argument is an error.  A non-dash argument is the filename;
a second one is an error. -/
def process_args_loop : List (List Char) → Int → Bool → Option (List Char) → ArgsResult
  | [], n, f, file => .ok n f file
  | arg :: rest, n, f, file =>
    match arg with
    | '-' :: 'h' :: _ => .helpExit
    | '-' :: 'n' :: _ =>
      match rest with
      | [] => .errorExit "error: option \"-n\" given, but count not specified.\n"
      | v :: rest' =>
        let tmp := atoi v
        process_args_loop rest' (if tmp ≠ 0 then tmp else n) f file
    | '-' :: 'r' :: _ => process_args_loop rest n false file
    | '-' :: t => .errorExit ("error: unrecognised option \"-" ++ String.mk t ++ "\"\n")
    | _ =>
      match file with
      | some _ => .errorExit "error: more than one file specified\n"
      | none => process_args_loop rest n f (some arg)

/-- Embedding of `process_args` on `argv[1..]`, with the initial global
state `bytes_per_line = 4`, `formatting_enabled = 1`, `filename = NULL`. -/
def process_args (args : List (List Char)) : ArgsResult :=
  process_args_loop args 4 true none

/-- Binary digits of `n`, most significant first, for Ruby's `"%b"`
rendering of a non-zero value; `fuel = n` always suffices. -/
def binCore : Nat → Nat → List Char
  | 0, _ => []
  | fuel + 1, n =>
    if n = 0 then [] else binCore fuel (n / 2) ++ [if n % 2 = 1 then '1' else '0']

/-- Ruby's `"%08b" % b`: binary digits zero-padded on the left to width 8. -/
def rubyByte (b : Nat) : String :=
  let digits := if b = 0 then ['0'] else binCore b b
  ⟨List.replicate (8 - digits.length) '0' ++ digits⟩

/-- Ruby's `each_slice(k)`: split into consecutive chunks of `k` elements;
`fuel = |l|` suffices for `k ≥ 1`. -/
def eachSlice (k : Nat) : Nat → List Nat → List (List Nat)
  | _, [] => []
  | 0, l => [l]
  | fuel + 1, l => l.take k :: eachSlice k fuel (l.drop k)

/-- Embedding of src/binarydump.rb: each byte rendered via `"%08b"`,
sliced four to a line, groups joined with three spaces, and `puts`
printing each line followed by a newline. -/
def ruby_output (bs : List Nat) : String :=
  String.join ((eachSlice 4 bs.length bs).map
    (fun l => "   ".intercalate (l.map rubyByte) ++ "\n"))

/-- C4: on input [0x68, 0x65, 0x6C, 0x6C, 0x6F] with chunk size 4 and
formatting enabled, `binary_dump` produces exactly the claimed text, with
three spaces after every byte group including the last of each line. -/
theorem c4_hello_formatted :
    binary_dump 4 true [0x68, 0x65, 0x6C, 0x6C, 0x6F] =
      "0x0\t01101000   01100101   01101100   01101100   \n0x4\t01101111   \n0x5\n" := by
  decide

/-- C5 counterexample: on input [0x68, 0x65, 0x6C, 0x6C, 0x6F] with chunk
size 4 in raw mode, the output is not the claimed single line containing
all five groups: the loop prints a newline after every chunk. -/
theorem c5_raw_not_single_line :
    binary_dump 4 false [0x68, 0x65, 0x6C, 0x6C, 0x6F] ≠
      "0110100001100101011011000110110001101111\n" := by
  decide

/-- C5 amended: in raw mode with chunk size 4, the five input bytes are
printed as one newline-terminated line per chunk: a line with the first
four groups and a line with the fifth. -/
theorem c5_raw_output :
    binary_dump 4 false [0x68, 0x65, 0x6C, 0x6C, 0x6F] =
      "01101000011001010110110001101100\n01101111\n" := by
  decide

/-- C1: for every byte value below 256, `print_byte` emits exactly 8
characters, character `i` (from the left) is '1' exactly when bit `7 - i`
of the byte is set, and parsing the output as a base-2 integer gives the
byte back. -/
theorem print_byte_correct (b : Nat) (hb : b < 256) (i : Nat) (hi : i < 8) :
    (print_byte b).length = 8 ∧
      (print_byte b).data.getD i ' ' = (if Nat.testBit b (7 - i) then '1' else '0') ∧
      parseBin (print_byte b) = b := by
  have h : ∀ b' < 256, ∀ i' < 8,
      (print_byte b').length = 8 ∧
        (print_byte b').data.getD i' ' ' = (if Nat.testBit b' (7 - i') then '1' else '0') ∧
        parseBin (print_byte b') = b' := by decide
  exact h b hb i hi

/-- C1 witness: the theorem instantiated at byte 0x68 and index 2. -/
theorem print_byte_correct_witness :
    (print_byte 104).length = 8 ∧
      (print_byte 104).data.getD 2 ' ' = (if Nat.testBit 104 (7 - 2) then '1' else '0') ∧
      parseBin (print_byte 104) = 104 :=
  print_byte_correct 104 (by decide) 2 (by decide)

/-- C6 counterexample: supplying `-n -5` is accepted and resolves the
chunk size to -5, which violates `chunk_size ≥ 1`: `atoi "-5" = -5` is
non-zero, so the code stores it without any sign check. -/
theorem chunk_size_negative_accepted :
    process_args [['-', 'n'], ['-', '5']] = ArgsResult.ok (-5) true none ∧
      ¬ (1 ≤ (-5 : Int)) := by
  decide

theorem ite_nonzero (tmp m : Int) (h : m ≠ 0) : (if tmp ≠ 0 then tmp else m) ≠ 0 := by
  split
  · assumption
  · exact h

theorem process_args_loop_ok_nonzero (as : List (List Char)) (m : Int) (g : Bool)
    (fl : Option (List Char)) :
    ∀ (n' : Int) (f' : Bool) (file' : Option (List Char)),
      process_args_loop as m g fl = ArgsResult.ok n' f' file' → m ≠ 0 → n' ≠ 0 := by
  induction as, m, g, fl using process_args_loop.induct with
  | case1 m g fl =>
    intro n' f' file' heq hm
    rw [process_args_loop.eq_1] at heq
    cases heq
    exact hm
  | case2 rest m g fl tail =>
    intro n' f' file' heq hm
    rw [process_args_loop.eq_2] at heq
    cases heq
  | case3 m g fl tail =>
    intro n' f' file' heq hm
    rw [process_args_loop.eq_3] at heq
    cases heq
  | case4 m g fl tail v rest' tmp ih =>
    intro n' f' file' heq hm
    rw [process_args_loop.eq_4] at heq
    exact ih n' f' file' heq (ite_nonzero _ _ hm)
  | case5 rest m g fl tail ih =>
    intro n' f' file' heq hm
    rw [process_args_loop.eq_5] at heq
    exact ih n' f' file' heq hm
  | case6 rest m g fl t h1 h2 h3 =>
    intro n' f' file' heq hm
    rw [process_args_loop.eq_6 _ _ _ _ _ h1 h2 h3] at heq
    cases heq
  | case7 arg rest m g val h1 h2 h3 h4 =>
    intro n' f' file' heq hm
    rw [process_args_loop.eq_7 _ _ _ _ _ h1 h2 h3 h4] at heq
    cases heq
  | case8 arg rest m g h1 h2 h3 h4 ih =>
    intro n' f' file' heq hm
    rw [process_args_loop.eq_8 _ _ _ _ h1 h2 h3 h4] at heq
    exact ih n' f' file' heq hm

/-- C6 amended: whenever argument resolution returns normally, the
resolved chunk size is a non-zero integer (a `-n` value parsing to zero is
never stored), but it is not necessarily ≥ 1: negative values pass the
`tmp != 0` test and are stored as-is. -/
theorem chunk_size_nonzero (args : List (List Char)) (n : Int) (f : Bool)
    (file : Option (List Char))
    (h : process_args args = ArgsResult.ok n f file) : n ≠ 0 :=
  process_args_loop_ok_nonzero args 4 true none n f file h (by decide)

/-- C6 witness: the empty argument list resolves to the default chunk
size 4, which is non-zero. -/
theorem chunk_size_nonzero_witness : (4 : Int) ≠ 0 :=
  chunk_size_nonzero [] 4 true none (by decide)

/-- C7 counterexample: the argument `-road` begins with `-` and is none
of `-h`, `-help`, `-n`, `-r`, `-raw`, yet argument resolution does not
terminate with an error: the C code matches options by their first
character only, so `-road` is treated as `-r` and raw mode is enabled. -/
theorem unrecognised_option_not_always_error :
    process_args [['-', 'r', 'o', 'a', 'd']] = ArgsResult.ok 4 false none ∧
      (['-', 'r', 'o', 'a', 'd'] : List Char) ∉
        [['-', 'h'], ['-', 'h', 'e', 'l', 'p'], ['-', 'n'], ['-', 'r'], ['-', 'r', 'a', 'w']] := by
  decide

/-- C7 amended: an argument beginning with `-` whose FIRST character
after the dash is not `h`, `n` or `r` (including the bare argument `-`)
makes argument resolution stop at once with `exit(EXIT_FAILURE)` and an
error message, before any dump output; arguments whose first character
after the dash is `h`, `n` or `r` are instead treated as the
corresponding option whatever their remaining characters. -/
theorem unknown_dash_option_errors (c : Char) (t : List Char) (rest : List (List Char))
    (n : Int) (f : Bool) (file : Option (List Char))
    (hc : c ≠ 'h' ∧ c ≠ 'n' ∧ c ≠ 'r') :
    process_args_loop (('-' :: c :: t) :: rest) n f file =
        ArgsResult.errorExit ("error: unrecognised option \"-" ++ String.mk (c :: t) ++ "\"\n") ∧
      process_args_loop (['-'] :: rest) n f file =
        ArgsResult.errorExit "error: unrecognised option \"-\"\n" := by
  obtain ⟨h1, h2, h3⟩ := hc
  constructor
  · rw [process_args_loop.eq_6]
    · intro tail he
      exact h1 (by injection he)
    · intro tail he
      exact h2 (by injection he)
    · intro tail he
      exact h3 (by injection he)
  · rw [process_args_loop.eq_6]
    · decide
    · intro tail he
      cases he
    · intro tail he
      cases he
    · intro tail he
      cases he

/-- C7 witness: amended theorem instantiated at the argument `-q`. -/
theorem unknown_dash_option_errors_witness :
    process_args_loop [['-', 'q']] 4 true none =
        ArgsResult.errorExit ("error: unrecognised option \"-" ++ String.mk ['q'] ++ "\"\n") ∧
      process_args_loop [['-']] 4 true none =
        ArgsResult.errorExit "error: unrecognised option \"-\"\n" :=
  unknown_dash_option_errors 'q' [] [] 4 true none (by decide)

/-- C8: a `-n` value that `atoi` maps to 0 (the literal `0` or any
non-numeric string) raises no error: the chunk size keeps its previous
value and processing continues with the remaining arguments; in
particular `-n 0` alone resolves to the default configuration. -/
theorem n_zero_value_ignored (v : List Char) (rest : List (List Char)) (n : Int) (f : Bool)
    (file : Option (List Char)) (h : atoi v = 0) :
    process_args_loop (['-', 'n'] :: v :: rest) n f file = process_args_loop rest n f file ∧
      process_args [['-', 'n'], ['0']] = ArgsResult.ok 4 true none := by
  constructor
  · rw [process_args_loop.eq_4, h]
    simp
  · decide

theorem binary_dump_loop_empty (k : Nat) (fmt : Bool) (fuel off : Nat) (bs : List Nat)
    (h : bs.take k = []) :
    binary_dump_loop k fmt (fuel + 1) off bs = ("", off, []) := by
  simp only [binary_dump_loop, if_pos h]

theorem binary_dump_loop_step (k : Nat) (fmt : Bool) (fuel off : Nat) (bs : List Nat)
    (h : bs.take k ≠ []) :
    binary_dump_loop k fmt (fuel + 1) off bs =
      ((if fmt then "0x" ++ toHex off ++ "\t" else "") ++ render_chunk fmt (bs.take k) ++ "\n" ++
          (binary_dump_loop k fmt fuel (off + (bs.take k).length) (bs.drop k)).1,
        (binary_dump_loop k fmt fuel (off + (bs.take k).length) (bs.drop k)).2.1,
        (off + (bs.take k).length) ::
          (binary_dump_loop k fmt fuel (off + (bs.take k).length) (bs.drop k)).2.2) := by
  simp only [binary_dump_loop, if_neg h]

theorem binary_dump_loop_fin (k : Nat) (fmt : Bool) (hk : 1 ≤ k) :
    ∀ (fuel : Nat) (bs : List Nat) (off : Nat), bs.length ≤ fuel →
      (binary_dump_loop k fmt fuel off bs).2.1 = off + bs.length := by
  intro fuel
  induction fuel with
  | zero =>
    intro bs off hlen
    have : bs = [] := List.eq_nil_of_length_eq_zero (Nat.le_zero.mp hlen)
    subst this
    simp [binary_dump_loop]
  | succ fuel ih =>
    intro bs off hlen
    by_cases h : bs.take k = []
    · have hbs : bs = [] := by
        rcases bs with _ | ⟨b, bs'⟩
        · rfl
        · obtain ⟨k', rfl⟩ : ∃ k', k = k' + 1 := ⟨k - 1, by omega⟩
          simp at h
      subst hbs
      rw [binary_dump_loop_empty k fmt fuel off [] h]
      simp
    · rw [binary_dump_loop_step k fmt fuel off bs h]
      have hlt : 0 < bs.length := by
        rcases bs with _ | _
        · simp at h
        · simp
      have hdrop : (bs.drop k).length ≤ fuel := by
        simp only [List.length_drop]
        omega
      have hih := ih (bs.drop k) (off + (bs.take k).length) hdrop
      simp only [List.length_take, List.length_drop] at hih
      simp only [List.length_take, List.length_drop, hih]
      omega

theorem binary_dump_loop_trace (k : Nat) (fmt : Bool) (hk : 1 ≤ k) :
    ∀ (fuel : Nat) (bs : List Nat) (off : Nat), bs.length ≤ fuel →
      ∀ j, j < (binary_dump_loop k fmt fuel off bs).2.2.length →
        (binary_dump_loop k fmt fuel off bs).2.2.getD j 0 =
          off + min ((j + 1) * k) bs.length := by
  intro fuel
  induction fuel with
  | zero =>
    intro bs off hlen j hj
    have : bs = [] := List.eq_nil_of_length_eq_zero (Nat.le_zero.mp hlen)
    subst this
    simp [binary_dump_loop] at hj
  | succ fuel ih =>
    intro bs off hlen j hj
    by_cases h : bs.take k = []
    · rcases bs with _ | ⟨b, bs'⟩
      · rw [binary_dump_loop_empty k fmt fuel off [] h] at hj
        simp at hj
      · obtain ⟨k', rfl⟩ : ∃ k', k = k' + 1 := ⟨k - 1, by omega⟩
        simp at h
    · rw [binary_dump_loop_step k fmt fuel off bs h] at hj ⊢
      have hlt : 0 < bs.length := by
        rcases bs with _ | _
        · simp at h
        · simp
      have hdrop : (bs.drop k).length ≤ fuel := by
        simp only [List.length_drop]
        omega
      rcases j with _ | j
      · simp [List.length_take]
      · simp only [List.getD_cons_succ, List.length_cons, Nat.add_lt_add_iff_right] at hj ⊢
        rw [ih (bs.drop k) (off + (bs.take k).length) hdrop j hj]
        simp only [List.length_take, List.length_drop]
        have hmul : (j + 1 + 1) * k = (j + 1) * k + k := by ring
        rw [hmul]
        generalize (j + 1) * k = A
        omega

/-- C2: with any chunk size k ≥ 1 the offset variable of the render loop
equals the total number of bytes consumed so far after each chunk (after
the j-th chunk it is `min ((j+1)*k) L`, the bytes consumed regardless of
chunk boundaries), the loop's final offset equals the input length, and
the formatted output ends with a final offset line rendering exactly that
length. -/
theorem offset_tracks_bytes_consumed (k : Nat) (hk : 1 ≤ k) (bs : List Nat) (j : Nat)
    (hj : j < (binary_dump_loop k true bs.length 0 bs).2.2.length) :
    (binary_dump_loop k true bs.length 0 bs).2.2.getD j 0 = min ((j + 1) * k) bs.length ∧
      (binary_dump_loop k true bs.length 0 bs).2.1 = bs.length ∧
      binary_dump k true bs =
        (binary_dump_loop k true bs.length 0 bs).1 ++ ("0x" ++ toHex bs.length ++ "\n") := by
  have hfin : (binary_dump_loop k true bs.length 0 bs).2.1 = bs.length := by
    rw [binary_dump_loop_fin k true hk bs.length bs 0 (Nat.le_refl _)]
    exact Nat.zero_add _
  refine ⟨?_, hfin, ?_⟩
  · rw [binary_dump_loop_trace k true hk bs.length bs 0 (Nat.le_refl _) j hj]
    exact Nat.zero_add _
  · simp only [binary_dump, hfin, if_pos]

/-- C2 witness: the theorem instantiated at chunk size 4 and a 5-byte
input, at trace index 1 (after the second chunk, 5 bytes are consumed). -/
theorem offset_tracks_bytes_consumed_witness :
    (binary_dump_loop 4 true ([1, 2, 3, 4, 5] : List Nat).length 0 [1, 2, 3, 4, 5]).2.2.getD 1 0 =
        min ((1 + 1) * 4) ([1, 2, 3, 4, 5] : List Nat).length ∧
      (binary_dump_loop 4 true ([1, 2, 3, 4, 5] : List Nat).length 0 [1, 2, 3, 4, 5]).2.1 =
        ([1, 2, 3, 4, 5] : List Nat).length ∧
      binary_dump 4 true [1, 2, 3, 4, 5] =
        (binary_dump_loop 4 true ([1, 2, 3, 4, 5] : List Nat).length 0 [1, 2, 3, 4, 5]).1 ++
          ("0x" ++ toHex ([1, 2, 3, 4, 5] : List Nat).length ++ "\n") :=
  offset_tracks_bytes_consumed 4 (by decide) [1, 2, 3, 4, 5] 1 (by decide)

theorem printByteLoop_mem (b : Nat) :
    ∀ (n : Nat) (c : Char), c ∈ printByteLoop b n → c = '0' ∨ c = '1' := by
  intro n
  induction n with
  | zero =>
    intro c hc
    simp [printByteLoop] at hc
  | succ n ih =>
    intro c hc
    rcases List.mem_cons.mp hc with h | h
    · subst h
      split
      · right
        rfl
      · left
        rfl
    · exact ih c h

theorem render_chunk_raw_mem :
    ∀ (chunk : List Nat) (c : Char), c ∈ (render_chunk false chunk).data →
      c = '0' ∨ c = '1' := by
  intro chunk
  induction chunk with
  | nil =>
    intro c hc
    simp [render_chunk] at hc
  | cons b rest ih =>
    intro c hc
    simp only [render_chunk, if_neg Bool.false_ne_true, String.data_append] at hc
    rcases List.mem_append.mp hc with h | h
    · rcases List.mem_append.mp h with h' | h'
      · exact printByteLoop_mem b 8 c h'
      · simp at h'
    · exact ih c h

theorem binary_dump_loop_raw_mem (k : Nat) :
    ∀ (fuel off : Nat) (bs : List Nat) (c : Char),
      c ∈ (binary_dump_loop k false fuel off bs).1.data →
        c = '0' ∨ c = '1' ∨ c = '\n' := by
  intro fuel
  induction fuel with
  | zero =>
    intro off bs c hc
    simp [binary_dump_loop] at hc
  | succ fuel ih =>
    intro off bs c hc
    by_cases h : bs.take k = []
    · rw [binary_dump_loop_empty k false fuel off bs h] at hc
      simp at hc
    · rw [binary_dump_loop_step k false fuel off bs h] at hc
      simp only [if_neg Bool.false_ne_true, String.data_append] at hc
      rcases List.mem_append.mp hc with h' | h'
      · rcases List.mem_append.mp h' with h'' | h''
        · rcases List.mem_append.mp h'' with h3 | h3
          · simp at h3
          · rcases render_chunk_raw_mem (bs.take k) c h3 with h4 | h4
            · exact Or.inl h4
            · exact Or.inr (Or.inl h4)
        · right
          right
          simpa using h''
      · exact ih (off + (bs.take k).length) (bs.drop k) c h'

/-- C9: in raw mode, for every chunk size and every input, each character
of the output is '0', '1' or a newline: there is never a tab, an offset
prefix, inter-byte spacing, or a final summary offset line. -/
theorem raw_mode_only_bits (k : Nat) (bs : List Nat) (c : Char)
    (hc : c ∈ (binary_dump k false bs).data) : c = '0' ∨ c = '1' ∨ c = '\n' := by
  simp only [binary_dump, if_neg Bool.false_ne_true, String.data_append] at hc
  rcases List.mem_append.mp hc with h | h
  · exact binary_dump_loop_raw_mem k bs.length 0 bs c h
  · simp at h

/-- C9 witness: the character '0' occurring in the raw dump of a single
byte. -/
theorem raw_mode_only_bits_witness : '0' = '0' ∨ '0' = '1' ∨ '0' = '\n' :=
  raw_mode_only_bits 4 [104] '0' (by decide)

theorem toHexCore_mem :
    ∀ (fuel n : Nat) (c : Char), c ∈ toHexCore fuel n → c ≠ '\n' := by
  intro fuel
  induction fuel with
  | zero =>
    intro n c hc
    simp [toHexCore] at hc
  | succ fuel ih =>
    intro n c hc
    rw [toHexCore] at hc
    split at hc
    · simp at hc
    · rcases List.mem_append.mp hc with h | h
      · exact ih (n / 16) c h
      · have hd : ∀ d, d < 16 → hexDigit d ≠ '\n' := by decide
        have := List.mem_singleton.mp h
        subst this
        exact hd _ (Nat.mod_lt _ (by omega))

theorem toHex_count_nl (n : Nat) : (toHex n).data.count '\n' = 0 := by
  rw [toHex]
  split
  · decide
  · exact List.count_eq_zero.mpr (fun hmem => toHexCore_mem n n '\n' hmem rfl)

theorem print_byte_count_nl (b : Nat) : (print_byte b).data.count '\n' = 0 :=
  List.count_eq_zero.mpr (fun hmem => by
    rcases printByteLoop_mem b 8 '\n' hmem with h | h <;> cases h)

theorem render_chunk_count_nl (fmt : Bool) :
    ∀ chunk : List Nat, (render_chunk fmt chunk).data.count '\n' = 0 := by
  intro chunk
  induction chunk with
  | nil => rfl
  | cons b rest ih =>
    simp only [render_chunk, String.data_append, List.count_append, ih,
      print_byte_count_nl]
    split <;> decide

theorem binary_dump_loop_count_nl (k : Nat) (fmt : Bool) (hk : 1 ≤ k) :
    ∀ (fuel : Nat) (bs : List Nat) (off : Nat), bs.length ≤ fuel →
      (binary_dump_loop k fmt fuel off bs).1.data.count '\n' =
        (bs.length + k - 1) / k := by
  intro fuel
  induction fuel with
  | zero =>
    intro bs off hlen
    have : bs = [] := List.eq_nil_of_length_eq_zero (Nat.le_zero.mp hlen)
    subst this
    simp only [binary_dump_loop, List.length_nil, Nat.zero_add]
    rw [Nat.div_eq_of_lt (by omega)]
    rfl
  | succ fuel ih =>
    intro bs off hlen
    by_cases h : bs.take k = []
    · have hbs : bs = [] := by
        rcases bs with _ | ⟨b, bs'⟩
        · rfl
        · obtain ⟨k', rfl⟩ : ∃ k', k = k' + 1 := ⟨k - 1, by omega⟩
          simp at h
      subst hbs
      rw [binary_dump_loop_empty k fmt fuel off [] h]
      simp only [List.length_nil, Nat.zero_add]
      rw [Nat.div_eq_of_lt (by omega)]
      rfl
    · rw [binary_dump_loop_step k fmt fuel off bs h]
      have hlt : 0 < bs.length := by
        rcases bs with _ | _
        · simp at h
        · simp
      have hdrop : (bs.drop k).length ≤ fuel := by
        simp only [List.length_drop]
        omega
      simp only [String.data_append, List.count_append, ih (bs.drop k) _ hdrop,
        render_chunk_count_nl, List.length_drop]
      have hpre : (if fmt then "0x" ++ toHex off ++ "\t" else "").data.count '\n' = 0 := by
        split
        · simp only [String.data_append, List.count_append, toHex_count_nl]
          decide
        · rfl
      have hnl : ("\n" : String).data.count '\n' = 1 := by decide
      rw [hpre, hnl]
      rcases le_or_lt k bs.length with hcase | hcase
      · have h1 : bs.length - k + k - 1 = bs.length - 1 := by omega
        have h2 : bs.length + k - 1 = bs.length - 1 + k := by omega
        rw [h1, h2, Nat.add_div_right _ (by omega)]
        omega
      · have h1 : bs.length - k = 0 := by omega
        have h2 : bs.length + k - 1 = bs.length - 1 + k := by omega
        rw [h1, h2, Nat.add_div_right _ (by omega), Nat.div_eq_of_lt (by omega),
          Nat.div_eq_of_lt (by omega)]

/-- C3: with formatting enabled and chunk size k ≥ 1, the output contains
exactly `ceil(L / k) + 1` newline-terminated lines (every line the
renderer emits ends in a newline, so lines are counted by their
terminating newline character); the empty input yields exactly the single
line `0x0`. -/
theorem formatted_line_count (k : Nat) (hk : 1 ≤ k) (bs : List Nat) :
    (binary_dump k true bs).data.count '\n' = (bs.length + k - 1) / k + 1 ∧
      binary_dump k true [] = "0x0\n" := by
  constructor
  · simp only [binary_dump, if_pos, String.data_append, List.count_append,
      binary_dump_loop_count_nl k true hk bs.length bs 0 (Nat.le_refl _), toHex_count_nl]
    rfl
  · simp only [binary_dump, binary_dump_loop]
    decide

/-- C3 witness: chunk size 3 on a 7-byte input gives `ceil(7/3) + 1 = 4`
newlines, and the empty input prints `0x0`. -/
theorem formatted_line_count_witness :
    (binary_dump 3 true [1, 2, 3, 4, 5, 6, 7]).data.count '\n' =
        (([1, 2, 3, 4, 5, 6, 7] : List Nat).length + 3 - 1) / 3 + 1 ∧
      binary_dump 3 true [] = "0x0\n" :=
  formatted_line_count 3 (by decide) [1, 2, 3, 4, 5, 6, 7]

/-- C8 witness: the theorem instantiated at the non-numeric value `abc`
followed by `-r`. -/
theorem n_zero_value_ignored_witness :
    process_args_loop [['-', 'n'], ['a', 'b', 'c'], ['-', 'r']] 4 true none =
        process_args_loop [['-', 'r']] 4 true none ∧
      process_args [['-', 'n'], ['0']] = ArgsResult.ok 4 true none :=
  n_zero_value_ignored ['a', 'b', 'c'] [['-', 'r']] 4 true none (by decide)

/-- C10 counterexample: on the single byte 0x68 the Ruby script prints
`01101000\n` while the C renderer with the default configuration (chunk
size 4, formatting enabled) prints `0x0\t01101000   \n0x1\n`: the Ruby
output has no offset column, no trailing spaces and no final offset
line, so the two programs do not produce the same output text. -/
theorem ruby_differs_from_c :
    ruby_output [104] ≠ binary_dump 4 true [104] := by
  decide

/-- C10 amended: the Ruby implementation renders every byte value below
256 as exactly the same 8-character binary group as the C renderer's
`print_byte`, and groups them four per line like the default C chunk
size; but its output text is not the C formatted output: it has no
hexadecimal offset prefixes, separates groups with three spaces only
BETWEEN groups (no trailing spaces), and prints no final offset line. -/
theorem ruby_byte_matches_print_byte (b : Nat) (hb : b < 256) :
    rubyByte b = print_byte b := by
  have h : ∀ b' < 256, rubyByte b' = print_byte b' := by decide
  exact h b hb

/-- C10 witness: the amended theorem instantiated at byte 0x68. -/
theorem ruby_byte_matches_print_byte_witness : rubyByte 104 = print_byte 104 :=
  ruby_byte_matches_print_byte 104 (by decide)

end BinaryDump
